import Mathlib

/-!
Verification of the order/invoice ID-reconciliation and batched-enrichment subsystem
of the b2b-buyer-portal repository, shallowly embedded in Lean.

Sources embedded here:
- apps/storefront/src/pages/customizations/graphql/orders.ts
  (chunkArray, getOrdersExtraFields, getCompanyInfo, getCompaniesInfo)
- apps/storefront/src/pages/customizations/api/orderMetafields.ts
  (getEpicorOrderIdsFromMetafieldsProgressive)
- apps/storefront/src/pages/customizations/useOrderCustomizations.ts (getEpicorOrderId)
- apps/storefront/src/pages/customizations/invoiceHelpers.ts
  (parseEpicorLotPackSlip, createLotPackSlipLookup)
- apps/storefront/src/pages/order/Order.tsx (the fetchList consumer of the
  progressive enrichment callback and its stale-update guard)
- the OrderDetail id-resolution flow, modelled from the spec (its implementation
  is not in the repository snapshot; only its test file is).

JavaScript plain objects used as string-keyed maps are modelled as association
lists with insertion-order semantics: assigning to an existing key replaces the
value in place, assigning to a fresh key appends it at the end. Network calls
are modelled by explicit oracles (functions from request to an optional
response, where none models a rejected promise).
-/

/-- An extra field attached to an order, as in orders.ts (type ExtraField). -/
structure ExtraField where
  fieldName : String
  fieldValue : String
deriving DecidableEq, Repr

/-- JS object assignment obj[k] = v on a string-keyed record, modelled on an
association list: replace in place if the key exists, append otherwise. -/
def recordSet {κ : Type} [DecidableEq κ] {β : Type} (m : List (κ × β)) (k : κ) (v : β) :
    List (κ × β) :=
  if m.any (fun p => p.1 = k) then
    m.map (fun p => if p.1 = k then (k, v) else p)
  else
    m ++ [(k, v)]

/-- The keys of a record, in insertion order. -/
def recordKeys {κ β : Type} (m : List (κ × β)) : List κ :=
  m.map Prod.fst

theorem recordKeys_recordSet {κ : Type} [DecidableEq κ] {β : Type}
    (m : List (κ × β)) (k : κ) (v : β) :
    recordKeys (recordSet m k v) =
      if k ∈ recordKeys m then recordKeys m else recordKeys m ++ [k] := by
  unfold recordSet recordKeys
  by_cases h : m.any (fun p => p.1 = k)
  · simp only [h, if_true]
    have hk : k ∈ m.map Prod.fst := by
      rcases List.any_eq_true.mp h with ⟨p, hp, hpk⟩
      simp only [decide_eq_true_eq] at hpk
      exact hpk ▸ List.mem_map_of_mem Prod.fst hp
    simp only [hk, if_true, List.map_map]
    apply List.map_congr_left
    intro p _hp
    by_cases hpk : p.1 = k <;> simp [hpk, Function.comp]
  · have hk : k ∉ m.map Prod.fst := by
      intro hmem
      rcases List.mem_map.mp hmem with ⟨p, hp, hpk⟩
      exact (List.any_eq_true.not.mp h) ⟨p, hp, by simpa using hpk⟩
    simp [h, hk]

/-- orders.ts line 198: String(id).replace of every non-alphanumeric character
by an underscore, used to build a safe GraphQL alias for each id. -/
def sanitizeId (s : String) : String :=
  ⟨s.toList.map (fun c => if c.isAlphanum then c else '_')⟩

/-- orders.ts chunkArray (lines 167-173): splits an array into consecutive
chunks of the given size. The source loop runs i from 0 to length step size,
pushing array.slice(i, i + size) each iteration; for size > 0 that is
ceil(length / size) iterations with the i-th chunk being the slice starting at
i * size, which is what this closed form computes (slice(a, a + size) is drop a
then take size). The source is only ever called with
size = EXTRA_FIELDS_BATCH_SIZE = 10; the degenerate size = 0 case (where the
source loop would not terminate) yields the empty list here via Nat division
by zero. -/
def chunkArray {α : Type} (array : List α) (size : Nat) : List (List α) :=
  (List.range ((array.length + size - 1) / size)).map
    (fun i => (array.drop (i * size)).take size)

/-- orders.ts line 162: the B2B API hard limit of 10 items per batch query. -/
def EXTRA_FIELDS_BATCH_SIZE : Nat := 10

theorem chunkArray_nil {α : Type} (size : Nat) : chunkArray ([] : List α) size = [] := by
  unfold chunkArray
  rcases Nat.eq_zero_or_pos size with h | h
  · simp [h]
  · have : (0 + size - 1) / size = 0 := Nat.div_eq_of_lt (by omega)
    simp only [List.length_nil]
    rw [this]
    simp

theorem chunkCount_succ (a size : Nat) (ha : a ≠ 0) (hs : size ≠ 0) :
    (a + size - 1) / size = ((a - size) + size - 1) / size + 1 := by
  rcases le_or_lt size a with hle | hlt
  · have h1 : a + size - 1 = ((a - size) + size - 1) + size := by omega
    rw [h1, Nat.add_div_right _ (Nat.pos_of_ne_zero hs)]
  · have h2 : a - size = 0 := by omega
    rw [h2]
    have h3 : (0 + size - 1) / size = 0 := Nat.div_eq_of_lt (by omega)
    rw [h3]
    exact Nat.div_eq_of_lt_le (by omega) (by omega)

/-- Recursive characterization of chunkArray: on a nonempty list it yields the
first size elements as the head chunk and recurses on the rest. -/
theorem chunkArray_cons {α : Type} (size : Nat) (hs : size ≠ 0) (x : α) (xs : List α) :
    chunkArray (x :: xs) size
      = (x :: xs).take size :: chunkArray ((x :: xs).drop size) size := by
  unfold chunkArray
  rw [List.length_drop]
  rw [chunkCount_succ (x :: xs).length size (by simp) hs]
  rw [List.range_succ_eq_map, List.map_cons, List.map_map]
  refine congrArg₂ List.cons ?_ ?_
  · simp
  · refine List.map_congr_left ?_
    intro i _
    simp only [Function.comp_apply]
    rw [List.drop_drop, Nat.succ_mul, Nat.add_comm]

/-- The chunks produced by chunkArray concatenate back to the input list:
the chunking is a partition into consecutive runs. -/
theorem chunkArray_flatten {α : Type} (size : Nat) (hs : size ≠ 0) (array : List α) :
    (chunkArray array size).flatten = array := by
  have H : ∀ (n : Nat) (l : List α), l.length = n → (chunkArray l size).flatten = l := by
    intro n
    induction n using Nat.strong_induction_on with
    | _ n ih =>
      intro l hn
      match l with
      | [] => simp [chunkArray_nil]
      | x :: xs =>
        have hlt : ((x :: xs).drop size).length < n := by
          rw [List.length_drop]
          subst hn
          simp only [List.length_cons]
          omega
        rw [chunkArray_cons size hs, List.flatten_cons, ih _ hlt _ rfl]
        exact List.take_append_drop size (x :: xs)
  exact H array.length array rfl

/-- orders.ts line 228: alias.replace of the first occurrence of the literal
substring order: the JS String.prototype.replace with a string pattern removes
only the first occurrence. Character-list worker for the fixed pattern used in
the source. -/
def dropFirstOrderTag : List Char → List Char
  | [] => []
  | c :: rest =>
    if ("order_".toList).isPrefixOf (c :: rest) then (c :: rest).drop 6
    else c :: dropFirstOrderTag rest

/-- orders.ts line 228: const originalId = alias.replace of order-underscore
by the empty string. -/
def stripAlias (a : String) : String :=
  ⟨dropFirstOrderTag a.toList⟩

theorem stripAlias_append (s : String) : stripAlias ("order_" ++ s) = s := by
  unfold stripAlias
  have hdata : ("order_" ++ s).toList = 'o' :: 'r' :: 'd' :: 'e' :: 'r' :: '_' :: s.toList := rfl
  rw [hdata]
  rw [dropFirstOrderTag]
  have hpre : ("order_".toList).isPrefixOf
      ('o' :: 'r' :: 'd' :: 'e' :: 'r' :: '_' :: s.toList) = true := by
    simp [List.isPrefixOf]
  simp only [hpre, if_true, List.drop_succ_cons, List.drop_zero]
  cases s
  rfl

/-- One chunk request's resolved GraphQL payload: the aliased sub-records.
Each entry pairs a response alias with the orderData returned for it; none
models a null orderData or one without an extraFields property (the source
guard orderData?.extraFields skips those — note an empty extraFields array is
truthy in JS and is kept). -/
structure ChunkResponse where
  entries : List (String × Option (List ExtraField))
deriving DecidableEq, Repr

/-- orders.ts lines 223-233: fold one response's aliased entries into the
result record, keying by the alias with its order prefix removed. -/
def applyEntry (result : List (String × List ExtraField))
    (e : String × Option (List ExtraField)) : List (String × List ExtraField) :=
  match e.2 with
  | some fs => recordSet result (stripAlias e.1) fs
  | none => result

/-- orders.ts lines 219-233: merge all chunk responses into a single record. -/
def mergeResponses (responses : List ChunkResponse) : List (String × List ExtraField) :=
  responses.foldl (fun result resp => resp.entries.foldl applyEntry result) []

/-- Result of getOrdersExtraFields together with whether the catch branch
logged a failure (b2bLogger.error at orders.ts line 237). -/
structure ExtraFieldsOutcome where
  result : List (String × List ExtraField)
  loggedError : Bool
deriving DecidableEq, Repr

/-- orders.ts getOrdersExtraFields (lines 183-240). ids are the order ids as
strings (the source accepts string or number and stringifies for the alias);
isB2BUser only selects the query field name (order vs customerOrder) and the
operation name, which do not affect the result structure; net is the network
oracle giving each chunk request's outcome (none = rejected promise).
Promise.all of the chunk requests rejects as soon as any chunk rejects; the
surrounding try/catch then logs and returns the empty record. Only when every
chunk resolves are the responses merged. -/
def getOrdersExtraFields (ids : List String) (isB2BUser : Bool)
    (net : List String → Option ChunkResponse) : ExtraFieldsOutcome :=
  if ids = [] then ⟨[], false⟩
  else
    let chunks := chunkArray ids EXTRA_FIELDS_BATCH_SIZE
    let responses := chunks.map net
    if responses.all Option.isSome then ⟨mergeResponses (responses.filterMap id), false⟩
    else ⟨[], true⟩

/-- The chunk requests issued by getOrdersExtraFields: one GraphQL query per
chunk of at most EXTRA_FIELDS_BATCH_SIZE ids (none at all for an empty input,
which returns before chunking). -/
def issuedChunkRequests (ids : List String) : List (List String) :=
  if ids = [] then [] else chunkArray ids EXTRA_FIELDS_BATCH_SIZE

/-- A well-behaved backend response for one chunk: exactly one aliased entry
per requested id, aliased order-underscore-safeId as the source builds it,
each carrying an extraFields list determined by the id. -/
def honestChunkResponse (fields : String → List ExtraField) (chunk : List String) :
    ChunkResponse :=
  ⟨chunk.map (fun id => ("order_" ++ sanitizeId id, some (fields id)))⟩

/-- A network oracle on which every chunk request succeeds with the
well-behaved response. -/
def honestNet (fields : String → List ExtraField) :
    List String → Option ChunkResponse :=
  fun chunk => some (honestChunkResponse fields chunk)

theorem recordSet_of_not_mem {κ : Type} [DecidableEq κ] {β : Type}
    (m : List (κ × β)) (k : κ) (v : β) (h : k ∉ recordKeys m) :
    recordSet m k v = m ++ [(k, v)] := by
  unfold recordSet
  have hany : m.any (fun p => p.1 = k) = false := by
    rw [List.any_eq_false]
    intro p hp
    simp only [decide_eq_true_eq]
    intro hpk
    exact h (hpk ▸ List.mem_map_of_mem Prod.fst hp)
  simp [hany]

/-- Folding record assignments whose keys are pairwise distinct and all fresh
for the accumulator just appends the pairs in order. -/
theorem foldl_recordSet_fresh {κ : Type} [DecidableEq κ] {β : Type} :
    ∀ (ps : List (κ × β)) (acc : List (κ × β)),
      (ps.map Prod.fst).Nodup →
      (∀ k ∈ ps.map Prod.fst, k ∉ recordKeys acc) →
      ps.foldl (fun r p => recordSet r p.1 p.2) acc = acc ++ ps
  | [], acc, _, _ => by simp
  | (k, v) :: ps, acc, hnodup, hfresh => by
    simp only [List.foldl_cons]
    rw [recordSet_of_not_mem acc k v (hfresh k (by simp))]
    rw [foldl_recordSet_fresh ps (acc ++ [(k, v)])
      (by simpa using hnodup.of_cons)
      (by
        intro k2 hk2
        simp only [recordKeys, List.map_append] at *
        rw [List.mem_append]
        rintro (hmem | hmem)
        · exact hfresh k2 (List.mem_cons_of_mem _ hk2) hmem
        · simp only [List.map_cons, List.map_nil, List.mem_singleton] at hmem
          subst hmem
          simp only [List.map_cons, List.nodup_cons] at hnodup
          exact hnodup.1 hk2)]
    simp

theorem honestChunk_foldl (f : String → List ExtraField) (chunk : List String)
    (acc : List (String × List ExtraField)) :
    (honestChunkResponse f chunk).entries.foldl applyEntry acc
      = chunk.foldl (fun r id => recordSet r (sanitizeId id) (f id)) acc := by
  unfold honestChunkResponse
  rw [List.foldl_map]
  simp only [applyEntry, stripAlias_append]

theorem mergeResponses_honest (f : String → List ExtraField)
    (chunks : List (List String)) :
    mergeResponses (chunks.map (honestChunkResponse f))
      = (chunks.flatten).foldl (fun r id => recordSet r (sanitizeId id) (f id)) [] := by
  unfold mergeResponses
  rw [List.foldl_map]
  have hfun : (fun (result : List (String × List ExtraField)) chunk =>
        (honestChunkResponse f chunk).entries.foldl applyEntry result)
      = fun result chunk =>
        chunk.foldl (fun r id => recordSet r (sanitizeId id) (f id)) result := by
    funext result chunk
    exact honestChunk_foldl f chunk result
  rw [hfun, ← List.foldl_flatten]

/-- When every chunk request succeeds with the well-behaved response and the
sanitized ids are pairwise distinct, getOrdersExtraFields returns one entry per
input id, in input order, keyed by the sanitized id, and logs no failure. -/
theorem getOrdersExtraFields_honest (ids : List String) (b : Bool)
    (f : String → List ExtraField) (hnodup : (ids.map sanitizeId).Nodup) :
    getOrdersExtraFields ids b (honestNet f)
      = ⟨ids.map (fun id => (sanitizeId id, f id)), false⟩ := by
  unfold getOrdersExtraFields
  by_cases hids : ids = []
  · subst hids
    simp
  · simp only [hids, if_false]
    have hall : ((chunkArray ids EXTRA_FIELDS_BATCH_SIZE).map (honestNet f)).all
        Option.isSome = true := by
      rw [List.all_eq_true]
      intro o ho
      rcases List.mem_map.mp ho with ⟨c, _, rfl⟩
      rfl
    simp only [hall, if_true]
    have hfm : ((chunkArray ids EXTRA_FIELDS_BATCH_SIZE).map (honestNet f)).filterMap id
        = (chunkArray ids EXTRA_FIELDS_BATCH_SIZE).map (honestChunkResponse f) := by
      rw [List.filterMap_map]
      have hcomp : (id ∘ honestNet f) = some ∘ honestChunkResponse f := rfl
      rw [hcomp, List.filterMap_eq_map]
    rw [hfm, mergeResponses_honest, chunkArray_flatten _ (by decide)]
    have hpairs : ids.foldl (fun r id => recordSet r (sanitizeId id) (f id)) []
        = (ids.map (fun id => (sanitizeId id, f id))).foldl
            (fun r p => recordSet r p.1 p.2) [] := by
      rw [List.foldl_map]
    rw [hpairs, foldl_recordSet_fresh _ []
      (by simpa [List.map_map, Function.comp] using hnodup)
      (by simp [recordKeys])]
    simp

theorem chunkArray_of_length_25 {α : Type} (l : List α) (h : l.length = 25) :
    (chunkArray l 10).map List.length = [10, 10, 5] := by
  unfold chunkArray
  rw [h]
  have h3 : (25 + 10 - 1) / 10 = 3 := by norm_num
  rw [h3]
  have hr : List.range 3 = [0, 1, 2] := rfl
  rw [hr]
  simp [List.length_take, List.length_drop, h]

/-- Claim C5: for an input of 25 ids (pairwise distinct, and purely
alphanumeric so that sanitization is the identity, as order ids are), the ids
are partitioned into consecutive chunks and exactly 3 underlying requests are
issued, of sizes 10, 10 and 5; when all requests succeed, the merged result
map has exactly the 25 input ids as its keys. An empty id list produces an
empty map, no logged failure and no request at all, for every network
oracle. -/
theorem getOrdersExtraFields_batching (ids : List String) (b : Bool)
    (f : String → List ExtraField) (h25 : ids.length = 25) (hnodup : ids.Nodup)
    (halnum : ∀ id ∈ ids, sanitizeId id = id) :
    (issuedChunkRequests ids).map List.length = [10, 10, 5] ∧
    (issuedChunkRequests ids).length = 3 ∧
    (issuedChunkRequests ids).flatten = ids ∧
    recordKeys (getOrdersExtraFields ids b (honestNet f)).result = ids ∧
    (getOrdersExtraFields ids b (honestNet f)).result.length = 25 ∧
    (∀ (net : List String → Option ChunkResponse),
      getOrdersExtraFields [] b net = ⟨[], false⟩ ∧ issuedChunkRequests [] = []) := by
  have hne : ids ≠ [] := by
    intro he
    rw [he] at h25
    simp at h25
  have hmapsan : ids.map sanitizeId = ids := by
    calc ids.map sanitizeId = ids.map id := List.map_congr_left halnum
    _ = ids := List.map_id ids
  have hreq : issuedChunkRequests ids = chunkArray ids 10 := by
    unfold issuedChunkRequests
    simp [hne, EXTRA_FIELDS_BATCH_SIZE]
  have hlen : (issuedChunkRequests ids).map List.length = [10, 10, 5] := by
    rw [hreq]
    exact chunkArray_of_length_25 ids h25
  have hhonest := getOrdersExtraFields_honest ids b f (by rw [hmapsan]; exact hnodup)
  refine ⟨hlen, ?_, ?_, ?_, ?_, ?_⟩
  · have := congrArg List.length hlen
    simpa using this
  · rw [hreq]
    exact chunkArray_flatten 10 (by norm_num) ids
  · rw [hhonest]
    unfold recordKeys
    rw [List.map_map]
    calc ids.map (Prod.fst ∘ fun id => (sanitizeId id, f id))
        = ids.map sanitizeId := rfl
    _ = ids := hmapsan
  · rw [hhonest]
    simpa using h25
  · intro net
    constructor
    · unfold getOrdersExtraFields
      simp
    · rfl

/-- Claim C5 witness: the concrete scenario with ids 1..25. -/
theorem getOrdersExtraFields_batching_witness :
    (issuedChunkRequests ((List.range 25).map (fun n => toString (n + 1)))).map
      List.length = [10, 10, 5] ∧
    recordKeys (getOrdersExtraFields ((List.range 25).map (fun n => toString (n + 1)))
        true (honestNet (fun _ => []))).result
      = (List.range 25).map (fun n => toString (n + 1)) :=
  ⟨(getOrdersExtraFields_batching ((List.range 25).map (fun n => toString (n + 1)))
      true (fun _ => []) (by decide) (by decide) (by decide)).1,
   (getOrdersExtraFields_batching ((List.range 25).map (fun n => toString (n + 1)))
      true (fun _ => []) (by decide) (by decide) (by decide)).2.2.2.1⟩

/-- Claim C1 amended: if at least one chunk request rejects, getOrdersExtraFields
still resolves rather than rejects and logs the failure, but it returns the
EMPTY map regardless of how many other chunks succeeded: the single try/catch
wraps the Promise.all over all chunk requests, so partial data from successful
chunks is discarded. -/
theorem getOrdersExtraFields_any_failure_empty (ids : List String) (b : Bool)
    (net : List String → Option ChunkResponse)
    (hfail : ∃ chunk ∈ chunkArray ids EXTRA_FIELDS_BATCH_SIZE, net chunk = none) :
    getOrdersExtraFields ids b net = ⟨[], true⟩ := by
  rcases hfail with ⟨chunk, hmem, hnone⟩
  have hne : ids ≠ [] := by
    intro he
    rw [he, chunkArray_nil] at hmem
    exact List.not_mem_nil chunk hmem
  unfold getOrdersExtraFields
  simp only [hne, if_false]
  have hall : ((chunkArray ids EXTRA_FIELDS_BATCH_SIZE).map net).all Option.isSome = false := by
    rw [List.all_eq_false]
    exact ⟨net chunk, List.mem_map_of_mem net hmem, by rw [hnone]; simp⟩
  simp [hall]

/-- A network oracle that rejects every chunk request. -/
def rejectingNet : List String → Option ChunkResponse := fun _ => none

/-- Claim C1 witness: a single id whose lone chunk request rejects yields the
empty map with the failure logged. -/
theorem getOrdersExtraFields_any_failure_empty_witness :
    getOrdersExtraFields ["1"] true rejectingNet = ⟨[], true⟩ :=
  getOrdersExtraFields_any_failure_empty ["1"] true rejectingNet
    ⟨["1"], by decide, rfl⟩

/-- The 11 ids used for the C1 counterexample: two chunks, of 10 ids and 1 id. -/
def c1Ids : List String := ["1", "2", "3", "4", "5", "6", "7", "8", "9", "10", "11"]

/-- A network oracle for the C1 counterexample: the chunk containing id 11
rejects, every other chunk succeeds with a nonempty payload for each id. -/
def c1Net : List String → Option ChunkResponse :=
  fun chunk =>
    if chunk.contains "11" then none
    else honestNet (fun _ => [⟨"epicorOrderId", "EP"⟩]) chunk

/-- Claim C1 counterexample: with 11 ids split into chunks of 10 and 1, where
the first chunk succeeds with nonempty data and the second rejects,
getOrdersExtraFields returns the empty map (with the failure logged), not the
union of the successful chunks data — refuting that a partial map is returned
and that the empty map occurs only when all chunks failed. -/
theorem getOrdersExtraFields_partial_failure_counterexample :
    chunkArray c1Ids EXTRA_FIELDS_BATCH_SIZE
      = [["1", "2", "3", "4", "5", "6", "7", "8", "9", "10"], ["11"]] ∧
    (c1Net ["1", "2", "3", "4", "5", "6", "7", "8", "9", "10"]).isSome = true ∧
    c1Net ["11"] = none ∧
    mergeResponses ((c1Net ["1", "2", "3", "4", "5", "6", "7", "8", "9", "10"]).toList)
      ≠ [] ∧
    getOrdersExtraFields c1Ids true c1Net = ⟨[], true⟩ := by
  refine ⟨by decide, by decide, rfl, by decide, by decide⟩

/-- A network oracle for the C3 scenario: every chunk succeeds, answering each
aliased id with an empty extra-fields list. -/
def c3Net : List String → Option ChunkResponse := honestNet (fun _ => [])

/-- Claim C3: for the input id abc-123 (containing a non-alphanumeric
character) and a successful response addressed by the sanitized alias, the
returned map is keyed by the SANITIZED id abc_123, not by the original id
abc-123 as passed in: alias.replace of the order prefix recovers only the
sanitized form. This contradicts the source's own comment (orders.ts lines
226-228) that the alias is used to map back to the original ID. -/
theorem getOrdersExtraFields_keys_not_original :
    getOrdersExtraFields ["abc-123"] true c3Net = ⟨[("abc_123", [])], false⟩ ∧
    recordKeys (getOrdersExtraFields ["abc-123"] true c3Net).result ≠ ["abc-123"] := by
  refine ⟨rfl, by decide⟩

/-- Outcome of one order ids settled request inside
getEpicorOrderIdsFromMetafieldsProgressive (orderMetafields.ts lines 230-247):
success carries the fetched epicor id, failure is the catch branch after a
rejected fetch, nanId is the early branch where parseInt of a string id is
NaN. -/
inductive SettleOutcome
  | success (epicorId : String)
  | failure
  | nanId
deriving DecidableEq, Repr

/-- The value the source writes into the accumulator for one settled id: the
fetched value on success, the empty string on a failed fetch or an
unparseable id. -/
def SettleOutcome.writtenValue : SettleOutcome → String
  | .success v => v
  | .failure => ""
  | .nanId => ""

/-- One settlement event: the accumulator key String(id) of the settled order
id and how its request settled. The settlement order across ids is decided by
network timing, so the theorems quantify over every possible order. -/
structure Settlement where
  key : String
  outcome : SettleOutcome
deriving DecidableEq, Repr

/-- orderMetafields.ts lines 233-245: a settled request assigns
accumulated of String(id) before onProgress is invoked with a fresh copy. -/
def progressiveStep (acc : List (String × String)) (s : Settlement) :
    List (String × String) :=
  recordSet acc s.key s.outcome.writtenValue

/-- The final accumulated map, resolved after Promise.all joins. -/
def progressiveFinal (settles : List Settlement) : List (String × String) :=
  settles.foldl progressiveStep []

/-- The successive snapshots passed to onProgress: one call per settlement,
each receiving a copy of the full accumulator at that point. -/
def progressiveSnapshots (settles : List Settlement) : List (List (String × String)) :=
  (List.range settles.length).map
    (fun i => (settles.take (i + 1)).foldl progressiveStep [])

/-- orderMetafields.ts getEpicorOrderIdsFromMetafieldsProgressive (lines
219-250), as a function of the settlement sequence chosen by network timing:
returns the list of onProgress snapshots and the resolved final map. An empty
id list calls onProgress once with the empty map and resolves with the empty
map without issuing requests. -/
def getEpicorOrderIdsFromMetafieldsProgressive (orderIds : List String)
    (settles : List Settlement) :
    List (List (String × String)) × List (String × String) :=
  if orderIds = [] then ([[]], [])
  else (progressiveSnapshots settles, progressiveFinal settles)

/-- On an association list with pairwise distinct keys, lookup of a member
pair's key returns that pair's value. -/
theorem lookup_of_mem_nodup {κ : Type} [BEq κ] [LawfulBEq κ] {β : Type} :
    ∀ (ps : List (κ × β)) (k : κ) (v : β),
      (ps.map Prod.fst).Nodup → (k, v) ∈ ps → List.lookup k ps = some v
  | [], _, _, _, hmem => absurd hmem (List.not_mem_nil _)
  | (k1, v1) :: ps, k, v, hnodup, hmem => by
    rcases List.mem_cons.mp hmem with heq | hmem2
    · injection heq with h1 h2
      subst h1
      subst h2
      simp [List.lookup]
    · have hk : k ≠ k1 := by
        intro he
        subst he
        exact (List.nodup_cons.mp (by simpa using hnodup)).1
          (List.mem_map_of_mem Prod.fst hmem2)
      have hbeq : (k == k1) = false := beq_eq_false_iff_ne.mpr hk
      simp only [List.lookup, hbeq]
      exact lookup_of_mem_nodup ps k v (List.nodup_cons.mp (by simpa using hnodup)).2 hmem2

/-- When the settlement keys are pairwise distinct, the final accumulated map
is exactly one entry per settlement, in settlement order. -/
theorem progressiveFinal_eq_of_nodup (settles : List Settlement)
    (h : (settles.map Settlement.key).Nodup) :
    progressiveFinal settles
      = settles.map (fun s => (s.key, s.outcome.writtenValue)) := by
  unfold progressiveFinal progressiveStep
  have hmap : settles.foldl (fun acc s => recordSet acc s.key s.outcome.writtenValue) []
      = (settles.map (fun s => (s.key, s.outcome.writtenValue))).foldl
          (fun r p => recordSet r p.1 p.2) [] := by
    rw [List.foldl_map]
  rw [hmap, foldl_recordSet_fresh _ []
    (by simpa [List.map_map, Function.comp] using h)
    (by simp [recordKeys])]
  simp

/-- Claim C6: for every list of distinct order ids and every settlement order
covering each id exactly once (whatever each outcome), the resolved map of the
progressive fetch has exactly one key per requested id — its key multiset is a
permutation of the ids, so exactly N keys for N ids — and an id whose own
request failed is present, mapped to the empty string, rather than absent. -/
theorem progressive_completeness (orderIds : List String) (settles : List Settlement)
    (hnodup : orderIds.Nodup)
    (hperm : List.Perm (settles.map Settlement.key) orderIds) :
    List.Perm (recordKeys (getEpicorOrderIdsFromMetafieldsProgressive orderIds settles).2)
      orderIds ∧
    (getEpicorOrderIdsFromMetafieldsProgressive orderIds settles).2.length
      = orderIds.length ∧
    ∀ s ∈ settles, s.outcome = SettleOutcome.failure →
      List.lookup s.key (getEpicorOrderIdsFromMetafieldsProgressive orderIds settles).2
        = some "" := by
  have hkeysnodup : (settles.map Settlement.key).Nodup := hperm.nodup_iff.mpr hnodup
  by_cases hids : orderIds = []
  · subst hids
    have hsettles : settles = [] := by
      have := hperm.length_eq
      simpa using List.eq_nil_of_length_eq_zero (by simpa using this)
    subst hsettles
    refine ⟨by simp [getEpicorOrderIdsFromMetafieldsProgressive, recordKeys], by simp
      [getEpicorOrderIdsFromMetafieldsProgressive], by simp⟩
  · have hout : (getEpicorOrderIdsFromMetafieldsProgressive orderIds settles).2
        = settles.map (fun s => (s.key, s.outcome.writtenValue)) := by
      unfold getEpicorOrderIdsFromMetafieldsProgressive
      simp only [hids, if_false]
      exact progressiveFinal_eq_of_nodup settles hkeysnodup
    refine ⟨?_, ?_, ?_⟩
    · rw [hout]
      unfold recordKeys
      rw [List.map_map]
      exact hperm
    · rw [hout]
      simpa using hperm.length_eq
    · intro s hs hfail
      rw [hout]
      refine lookup_of_mem_nodup _ _ _ ?_ ?_
      · rw [List.map_map]
        exact hkeysnodup
      · have : (s.key, s.outcome.writtenValue) ∈ settles.map
            (fun s2 => (s2.key, s2.outcome.writtenValue)) :=
          List.mem_map_of_mem _ hs
        rw [hfail] at this
        exact this

/-- Claim C6 witness: ids 7 and 8, settling out of order, with the request for
id 8 failing. -/
theorem progressive_completeness_witness :
    List.Perm (recordKeys (getEpicorOrderIdsFromMetafieldsProgressive ["7", "8"]
        [⟨"8", SettleOutcome.failure⟩, ⟨"7", SettleOutcome.success "EP-7"⟩]).2)
      ["7", "8"] ∧
    List.lookup "8" (getEpicorOrderIdsFromMetafieldsProgressive ["7", "8"]
        [⟨"8", SettleOutcome.failure⟩, ⟨"7", SettleOutcome.success "EP-7"⟩]).2
      = some "" :=
  ⟨(progressive_completeness ["7", "8"]
      [⟨"8", SettleOutcome.failure⟩, ⟨"7", SettleOutcome.success "EP-7"⟩]
      (by decide) (by decide)).1,
   (progressive_completeness ["7", "8"]
      [⟨"8", SettleOutcome.failure⟩, ⟨"7", SettleOutcome.success "EP-7"⟩]
      (by decide) (by decide)).2.2
     ⟨"8", SettleOutcome.failure⟩ (by decide) rfl⟩

/-- The snapshot list handed to onProgress over one run of the progressive
fetch. -/
def progressiveRunSnapshots (orderIds : List String) (settles : List Settlement) :
    List (List (String × String)) :=
  (getEpicorOrderIdsFromMetafieldsProgressive orderIds settles).1

theorem progressiveSnapshots_length (settles : List Settlement) :
    (progressiveSnapshots settles).length = settles.length := by
  simp [progressiveSnapshots]

theorem progressiveSnapshots_get (settles : List Settlement) (i : Nat)
    (h : i < (progressiveSnapshots settles).length) :
    (progressiveSnapshots settles).get ⟨i, h⟩
      = (settles.take (i + 1)).foldl progressiveStep [] := by
  unfold progressiveSnapshots
  simp

theorem recordKeys_subset_recordSet {κ : Type} [DecidableEq κ] {β : Type}
    (m : List (κ × β)) (k : κ) (v : β) :
    recordKeys m ⊆ recordKeys (recordSet m k v) := by
  rw [recordKeys_recordSet]
  by_cases h : k ∈ recordKeys m
  · simp [h]
  · simp only [h, if_false]
    exact List.subset_append_left _ _

/-- Claim C7: across the onProgress invocations of one progressive fetch, each
invocation receives the full accumulated map — the i-th snapshot is the fold of
the first i+1 settlements, and the next snapshot extends it by exactly the next
settlement's single assignment, never a delta or a reset — and the key set
grows monotonically: every snapshot's key set contains the previous one's. -/
theorem progressive_monotone (orderIds : List String) (settles : List Settlement)
    (i : Nat) (hi : i + 1 < (progressiveRunSnapshots orderIds settles).length) :
    (progressiveRunSnapshots orderIds settles).get ⟨i, Nat.lt_of_succ_lt hi⟩
      = (settles.take (i + 1)).foldl progressiveStep [] ∧
    (i + 1 < settles.length) ∧
    (∀ (hs : i + 1 < settles.length),
      (progressiveRunSnapshots orderIds settles).get ⟨i + 1, hi⟩
        = progressiveStep
            ((progressiveRunSnapshots orderIds settles).get ⟨i, Nat.lt_of_succ_lt hi⟩)
            (settles.get ⟨i + 1, hs⟩)) ∧
    recordKeys ((progressiveRunSnapshots orderIds settles).get ⟨i, Nat.lt_of_succ_lt hi⟩)
      ⊆ recordKeys ((progressiveRunSnapshots orderIds settles).get ⟨i + 1, hi⟩) := by
  by_cases hids : orderIds = []
  · exfalso
    unfold progressiveRunSnapshots getEpicorOrderIdsFromMetafieldsProgressive at hi
    subst hids
    simp at hi
  · have hsnap : progressiveRunSnapshots orderIds settles = progressiveSnapshots settles := by
      unfold progressiveRunSnapshots getEpicorOrderIdsFromMetafieldsProgressive
      simp [hids]
    have hlen : (progressiveRunSnapshots orderIds settles).length = settles.length := by
      rw [hsnap, progressiveSnapshots_length]
    have hs1 : i + 1 < settles.length := by
      rw [← hlen]
      exact hi
    have hgeti : (progressiveRunSnapshots orderIds settles).get ⟨i, Nat.lt_of_succ_lt hi⟩
        = (settles.take (i + 1)).foldl progressiveStep [] := by
      have hb : i < (progressiveSnapshots settles).length := by
        rw [progressiveSnapshots_length]
        omega
      rw [List.get_of_eq hsnap ⟨i, Nat.lt_of_succ_lt hi⟩]
      exact progressiveSnapshots_get settles i hb
    have hgetsucc : (progressiveRunSnapshots orderIds settles).get ⟨i + 1, hi⟩
        = (settles.take (i + 2)).foldl progressiveStep [] := by
      have hb : i + 1 < (progressiveSnapshots settles).length := by
        rw [progressiveSnapshots_length]
        exact hs1
      rw [List.get_of_eq hsnap ⟨i + 1, hi⟩]
      exact progressiveSnapshots_get settles (i + 1) hb
    have htake : settles.take (i + 2) = settles.take (i + 1) ++ [settles.get ⟨i + 1, hs1⟩] := by
      rw [List.take_succ, List.getElem?_eq_getElem hs1]
      rfl
    have hstep : (settles.take (i + 2)).foldl progressiveStep []
        = progressiveStep ((settles.take (i + 1)).foldl progressiveStep [])
            (settles.get ⟨i + 1, hs1⟩) := by
      rw [htake, List.foldl_append]
      rfl
    refine ⟨hgeti, hs1, ?_, ?_⟩
    · intro hs
      rw [hgetsucc, hgeti, hstep]
    · rw [hgeti, hgetsucc, hstep]
      unfold progressiveStep
      exact recordKeys_subset_recordSet _ _ _

/-- Claim C7 witness: two settlements arriving out of id order; the first
snapshot's key set is contained in the second's. -/
theorem progressive_monotone_witness :
    recordKeys ((progressiveRunSnapshots ["1", "2"]
        [⟨"2", SettleOutcome.success "EP-2"⟩, ⟨"1", SettleOutcome.failure⟩]).get
          ⟨0, by decide⟩)
      ⊆ recordKeys ((progressiveRunSnapshots ["1", "2"]
        [⟨"2", SettleOutcome.success "EP-2"⟩, ⟨"1", SettleOutcome.failure⟩]).get
          ⟨1, by decide⟩) :=
  (progressive_monotone ["1", "2"]
    [⟨"2", SettleOutcome.success "EP-2"⟩, ⟨"1", SettleOutcome.failure⟩]
    0 (by decide)).2.2.2

/-- Order data shape consumed by getEpicorOrderId (useOrderCustomizations.ts
lines 31-56): an optional extraFields array (present on detail views) and an
optional extraInfo JSON string (present on list views). Other fields of the
loosely-typed order object are irrelevant to the extraction. -/
structure OrderData where
  extraFields : Option (List ExtraField)
  extraInfo : Option String
deriving DecidableEq, Repr

/-- useOrderCustomizations.ts getEpicorOrderId (lines 31-56). JSON.parse is a
host primitive, modelled by the jsonParse oracle; none stands for a thrown
parse error (caught and ignored by the source) or a result on which find
yields nothing. JS truthiness is preserved: an extraFields array is truthy
even when empty, a found field only short-circuits when its fieldValue is a
nonempty string, and an empty extraInfo string is falsy and skipped. -/
def getEpicorOrderId (jsonParse : String → Option (List ExtraField))
    (order : Option OrderData) : String :=
  match order with
  | none => ""
  | some o =>
    let fromFields :=
      match o.extraFields with
      | some fs =>
        match fs.find? (fun field : ExtraField => field.fieldName == "epicorOrderId") with
        | some f => if f.fieldValue ≠ "" then some f.fieldValue else none
        | none => none
      | none => none
    match fromFields with
    | some v => v
    | none =>
      match o.extraInfo with
      | some s =>
        if s ≠ "" then
          match jsonParse s with
          | some fs =>
            match fs.find? (fun field : ExtraField => field.fieldName == "epicorOrderId") with
            | some f => if f.fieldValue ≠ "" then f.fieldValue else ""
            | none => ""
          | none => ""
        else ""
      | none => ""

/-- Claim C8: getEpicorOrderId consults extraFields first and short-circuits:
whenever the extraFields array is present and its first entry with the ERP key
carries a nonempty value, that value is returned, whatever extraInfo contains
and whatever the JSON parse would yield. -/
theorem getEpicorOrderId_priority (jsonParse : String → Option (List ExtraField))
    (o : OrderData) (fs : List ExtraField) (f : ExtraField)
    (hfs : o.extraFields = some fs)
    (hfind : fs.find? (fun field : ExtraField => field.fieldName == "epicorOrderId") = some f)
    (hne : f.fieldValue ≠ "") :
    getEpicorOrderId jsonParse (some o) = f.fieldValue := by
  obtain ⟨ef, ei⟩ := o
  simp only at hfs
  subst hfs
  unfold getEpicorOrderId
  simp [hfind, hne]

/-- Claim C8 witness: a record carrying different ERP-id values in
extraFields and in (parsed) extraInfo returns the extraFields value. -/
theorem getEpicorOrderId_priority_witness :
    getEpicorOrderId (fun _ => some [⟨"epicorOrderId", "EP-INFO"⟩])
      (some ⟨some [⟨"epicorOrderId", "EP-FIELD"⟩], some "raw"⟩) = "EP-FIELD" ∧
    getEpicorOrderId (fun _ => some [⟨"epicorOrderId", "EP-INFO"⟩])
      (some ⟨none, some "raw"⟩) = "EP-INFO" ∧
    "EP-FIELD" ≠ "EP-INFO" :=
  ⟨getEpicorOrderId_priority (fun _ => some [⟨"epicorOrderId", "EP-INFO"⟩])
      ⟨some [⟨"epicorOrderId", "EP-FIELD"⟩], some "raw"⟩
      [⟨"epicorOrderId", "EP-FIELD"⟩] ⟨"epicorOrderId", "EP-FIELD"⟩
      rfl (by decide) (by decide),
   by decide, by decide⟩

/-- One entry of the epicorLotPackSlip payload (invoiceHelpers.ts lines
15-21): shipment sub-unit data for one 1-indexed order line. -/
structure LotPackSlipItem where
  sku : String
  tracking_num : String
  lot_num : String
  pack_num : String
  pack_line : String
deriving DecidableEq, Repr

/-- JS parseInt(s, 10): skip leading whitespace, read an optional sign, then a
maximal digit prefix; NaN (none) when no digit is found. -/
def jsParseInt (s : String) : Option Int :=
  let trimmed := s.toList.dropWhile Char.isWhitespace
  let signed : Int × List Char :=
    match trimmed with
    | '-' :: rest => (-1, rest)
    | '+' :: rest => (1, rest)
    | rest => (1, rest)
  let digits := signed.2.takeWhile Char.isDigit
  if digits = [] then none
  else some (signed.1 *
    ((digits.foldl (fun n c => n * 10 + (c.toNat - Char.toNat '0')) 0 : Nat) : Int))

/-- invoiceHelpers.ts parseEpicorLotPackSlip (lines 94-109). JSON.parse of the
field value is a host primitive, modelled by the jsonParseItems oracle; none
covers both a thrown parse error (the catch) and a non-array parse result,
which the source maps to the empty list. A missing field, a missing
extraFields array, or an empty (falsy) field value also yield the empty
list. -/
def parseEpicorLotPackSlip (jsonParseItems : String → Option (List LotPackSlipItem))
    (extraFields : Option (List ExtraField)) : List LotPackSlipItem :=
  match extraFields with
  | none => []
  | some efs =>
    match efs.find? (fun f => f.fieldName == "epicorLotPackSlip") with
    | none => []
    | some field =>
      if field.fieldValue = "" then []
      else
        match jsonParseItems field.fieldValue with
        | some items => items
        | none => []

/-- invoiceHelpers.ts createLotPackSlipLookup (lines 175-187): builds a map
keyed by the parsed pack_line number — never by sku; items whose pack_line
does not parse to a number are skipped, and a later item with the same line
number overwrites the earlier one (Map.set). -/
def createLotPackSlipLookup (jsonParseItems : String → Option (List LotPackSlipItem))
    (extraFields : Option (List ExtraField)) : List (Int × LotPackSlipItem) :=
  (parseEpicorLotPackSlip jsonParseItems extraFields).foldl
    (fun lookupByLine item =>
      match jsParseInt item.pack_line with
      | some lineNum => recordSet lookupByLine lineNum item
      | none => lookupByLine) []

/-- Claim C9: createLotPackSlipLookup keys its result by pack_line, never by
sku: for any invoice whose lot/pack-slip payload parses to two entries sharing
one sku but with pack_line values 3 and 4 and pack numbers p3 and p4, the
lookup at key 3 returns the first entry (pack number p3) and the lookup at key
4 returns the second (pack number p4) — nothing is cross-assigned between the
duplicate-sku lines. -/
theorem createLotPackSlipLookup_keyed_by_line
    (jsonParseItems : String → Option (List LotPackSlipItem))
    (extraFields : Option (List ExtraField))
    (s tn1 tn2 ln1 ln2 p3 p4 : String)
    (hparse : parseEpicorLotPackSlip jsonParseItems extraFields
      = [⟨s, tn1, ln1, p3, "3"⟩, ⟨s, tn2, ln2, p4, "4"⟩]) :
    (List.lookup 3 (createLotPackSlipLookup jsonParseItems extraFields)).map
        LotPackSlipItem.pack_num = some p3 ∧
    (List.lookup 4 (createLotPackSlipLookup jsonParseItems extraFields)).map
        LotPackSlipItem.pack_num = some p4 := by
  unfold createLotPackSlipLookup
  rw [hparse]
  have h3 : jsParseInt "3" = some 3 := rfl
  have h4 : jsParseInt "4" = some 4 := rfl
  simp only [List.foldl_cons, List.foldl_nil, h3, h4]
  simp [recordSet, List.lookup]

/-- Claim C9 witness: concrete duplicate-sku payload with pack numbers
1842617 and 994944 on lines 3 and 4. -/
theorem createLotPackSlipLookup_keyed_by_line_witness :
    (List.lookup 3 (createLotPackSlipLookup
        (fun _ => some [⟨"CS-PAS/25", "", "213", "1842617", "3"⟩,
                        ⟨"CS-PAS/25", "", "214", "994944", "4"⟩])
        (some [⟨"epicorLotPackSlip", "payload"⟩]))).map
      LotPackSlipItem.pack_num = some "1842617" ∧
    (List.lookup 4 (createLotPackSlipLookup
        (fun _ => some [⟨"CS-PAS/25", "", "213", "1842617", "3"⟩,
                        ⟨"CS-PAS/25", "", "214", "994944", "4"⟩])
        (some [⟨"epicorLotPackSlip", "payload"⟩]))).map
      LotPackSlipItem.pack_num = some "994944" :=
  createLotPackSlipLookup_keyed_by_line
    (fun _ => some [⟨"CS-PAS/25", "", "213", "1842617", "3"⟩,
                    ⟨"CS-PAS/25", "", "214", "994944", "4"⟩])
    (some [⟨"epicorLotPackSlip", "payload"⟩])
    "CS-PAS/25" "" "" "213" "214" "1842617" "994944" (by decide)

/-- The module-level company-name cache (orders.ts line 249), keyed by the
numeric company id; a JS Map modelled as an insertion-ordered association
list. -/
abbrev CompanyCache := List (Nat × String)

/-- orders.ts getCompanyInfo (lines 255-271): returns the resolved value
(none models the catch branch after a rejected request — logged, cache left
untouched) together with the cache after the call. The oracle net gives the
remote lookup outcome for an id: none a rejection, some name the response
companyName after the source's defaulting of a missing or falsy name to the
empty string. -/
def getCompanyInfo (net : Nat → Option String) (companyCache : CompanyCache)
    (companyId : Nat) : Option (Nat × String) × CompanyCache :=
  match List.lookup companyId companyCache with
  | some name => (some (companyId, name), companyCache)
  | none =>
    match net companyId with
    | some companyName =>
      (some (companyId, companyName), recordSet companyCache companyId companyName)
    | none => (none, companyCache)

/-- Iteration order of JS new Set built from a list: the distinct elements in
first-occurrence order. Worker carrying the elements already seen. -/
def uniqueFirstAux {α : Type} [DecidableEq α] (seen : List α) : List α → List α
  | [] => []
  | x :: xs =>
    if x ∈ seen then uniqueFirstAux seen xs
    else x :: uniqueFirstAux (x :: seen) xs

/-- orders.ts line 278: Array.from(new Set(companyIds)). -/
def uniqueFirst {α : Type} [DecidableEq α] (l : List α) : List α :=
  uniqueFirstAux [] l

theorem mem_uniqueFirstAux {α : Type} [DecidableEq α] (x : α) :
    ∀ (l : List α) (seen : List α), x ∈ uniqueFirstAux seen l ↔ x ∈ l ∧ x ∉ seen
  | [], seen => by simp [uniqueFirstAux]
  | y :: ys, seen => by
    by_cases hy : y ∈ seen
    · simp only [uniqueFirstAux, hy, if_true]
      rw [mem_uniqueFirstAux x ys seen]
      constructor
      · rintro ⟨h1, h2⟩
        exact ⟨List.mem_cons_of_mem y h1, h2⟩
      · rintro ⟨h1, h2⟩
        rcases List.mem_cons.mp h1 with rfl | h1b
        · exact absurd hy h2
        · exact ⟨h1b, h2⟩
    · simp only [uniqueFirstAux, hy, if_false, List.mem_cons]
      rw [mem_uniqueFirstAux x ys (y :: seen)]
      constructor
      · rintro (rfl | ⟨h1, h2⟩)
        · exact ⟨Or.inl rfl, hy⟩
        · exact ⟨Or.inr h1, fun hx => h2 (List.mem_cons_of_mem y hx)⟩
      · rintro ⟨h1 | h1, h2⟩
        · exact Or.inl h1
        · by_cases hxy : x = y
          · exact Or.inl hxy
          · exact Or.inr ⟨h1, by simp [hxy, h2]⟩

theorem uniqueFirstAux_nodup {α : Type} [DecidableEq α] :
    ∀ (l : List α) (seen : List α), (uniqueFirstAux seen l).Nodup
  | [], seen => by simp [uniqueFirstAux]
  | y :: ys, seen => by
    by_cases hy : y ∈ seen
    · simp only [uniqueFirstAux, hy, if_true]
      exact uniqueFirstAux_nodup ys seen
    · simp only [uniqueFirstAux, hy, if_false, List.nodup_cons]
      refine ⟨?_, uniqueFirstAux_nodup ys (y :: seen)⟩
      rw [mem_uniqueFirstAux]
      rintro ⟨_, h2⟩
      exact h2 (List.mem_cons_self y seen)

theorem mem_uniqueFirst {α : Type} [DecidableEq α] (x : α) (l : List α) :
    x ∈ uniqueFirst l ↔ x ∈ l := by
  unfold uniqueFirst
  rw [mem_uniqueFirstAux]
  simp

theorem uniqueFirst_nodup {α : Type} [DecidableEq α] (l : List α) :
    (uniqueFirst l).Nodup :=
  uniqueFirstAux_nodup l []

/-- orders.ts lines 278-284 of getCompaniesInfo: the cache after the
uncached deduplicated ids have been fetched. Each getCompanyInfo in the source
checks the cache itself at call start; the uncached ids are pairwise distinct
and each call touches only its own key, so the concurrent Promise.all is
modelled as a left fold. -/
def companiesCacheAfter (net : Nat → Option String) (companyCache : CompanyCache)
    (companyIds : List Nat) : CompanyCache :=
  (((uniqueFirst companyIds).filter
      (fun id => (List.lookup id companyCache).isNone)).foldl
    (fun c id => (getCompanyInfo net c id).2) companyCache)

/-- orders.ts getCompaniesInfo (lines 277-292): deduplicate the ids, fetch the
uncached ones, then read every deduplicated id out of the updated cache,
defaulting a missing (or empty, via the JS or-empty-string) name to the empty
string. Returns the result map together with the cache it leaves behind. -/
def getCompaniesInfo (net : Nat → Option String) (companyCache : CompanyCache)
    (companyIds : List Nat) : List (Nat × String) × CompanyCache :=
  ((uniqueFirst companyIds).map (fun id =>
      (id, (List.lookup id (companiesCacheAfter net companyCache companyIds)).getD "")),
   companiesCacheAfter net companyCache companyIds)

theorem lookup_append_single_ne {κ : Type} [BEq κ] {β : Type}
    (k j : κ) (v : β) (hne : (k == j) = false) :
    ∀ (m : List (κ × β)), List.lookup k (m ++ [(j, v)]) = List.lookup k m
  | [] => by simp [List.lookup, hne]
  | (k1, v1) :: ps => by
    simp only [List.cons_append, List.lookup]
    cases k == k1
    · simp only
      exact lookup_append_single_ne k j v hne ps
    · simp only

theorem not_mem_keys_of_lookup_none {κ : Type} [BEq κ] [LawfulBEq κ] {β : Type} :
    ∀ (m : List (κ × β)) (j : κ), List.lookup j m = none → j ∉ recordKeys m
  | [], j, _ => by simp [recordKeys]
  | (k1, v1) :: ps, j, h => by
    simp only [List.lookup] at h
    cases hj : j == k1 with
    | true => rw [hj] at h; exact absurd h (by simp)
    | false =>
      rw [hj] at h
      simp only [recordKeys, List.map_cons, List.mem_cons]
      rintro (rfl | hmem)
      · exact absurd hj (by simp)
      · exact not_mem_keys_of_lookup_none ps j h hmem

/-- A fold of getCompanyInfo calls leaves an id absent from the cache when it
was absent before and its own remote lookup rejects: no call for another id
touches its key, and its own call hits the catch branch. -/
theorem foldl_getCompanyInfo_lookup_none (net : Nat → Option String) (id2 : Nat)
    (hnet : net id2 = none) :
    ∀ (ids : List Nat) (c : CompanyCache), List.lookup id2 c = none →
      List.lookup id2 (ids.foldl (fun c2 j => (getCompanyInfo net c2 j).2) c) = none
  | [], c, hc => hc
  | j :: js, c, hc => by
    simp only [List.foldl_cons]
    apply foldl_getCompanyInfo_lookup_none net id2 hnet js
    unfold getCompanyInfo
    cases hl : List.lookup j c with
    | some name => exact hc
    | none =>
      cases hn : net j with
      | none => exact hc
      | some nm =>
        have hne : j ≠ id2 := by
          intro he
          rw [he, hnet] at hn
          exact Option.noConfusion hn
        simp only
        rw [recordSet_of_not_mem c j nm (not_mem_keys_of_lookup_none c j hl)]
        exact (lookup_append_single_ne id2 j nm
          (by simpa using Ne.symm hne) c).trans hc

/-- Claim C10: getCompaniesInfo never rejects (it is a total function of the
network oracle) and its result map is keyed exactly by the distinct input ids
in first-occurrence order; an input id that was not cached and whose remote
lookup rejected is still present, mapped to the empty string, while the cache
stays unpopulated for that id, so a later lookup for it retries the network. -/
theorem map_fst_pair {α β : Type} (g : α → β) (l : List α) :
    (l.map (fun a => (a, g a))).map Prod.fst = l := by
  rw [List.map_map]
  exact List.map_id l

/-- Association-list lookup over a pairing map with distinct keys returns the
paired value. -/
theorem lookup_map_pair {α β : Type} [BEq α] [LawfulBEq α]
    (g : α → β) (l : List α) (hnodup : l.Nodup) (x : α) (hx : x ∈ l) :
    List.lookup x (l.map (fun a => (a, g a))) = some (g x) := by
  refine lookup_of_mem_nodup _ x (g x) ?_ ?_
  · rw [map_fst_pair]
    exact hnodup
  · exact List.mem_map_of_mem _ hx

theorem getCompaniesInfo_total (net : Nat → Option String) (companyCache : CompanyCache)
    (companyIds : List Nat) :
    recordKeys (getCompaniesInfo net companyCache companyIds).1
      = uniqueFirst companyIds ∧
    (∀ id2 ∈ companyIds,
      List.lookup id2 companyCache = none → net id2 = none →
        List.lookup id2 (getCompaniesInfo net companyCache companyIds).1 = some "" ∧
        List.lookup id2 (getCompaniesInfo net companyCache companyIds).2 = none) := by
  constructor
  · exact map_fst_pair _ (uniqueFirst companyIds)
  · intro id2 hid2 hcache hnet
    have hafter : List.lookup id2 (companiesCacheAfter net companyCache companyIds)
        = none :=
      foldl_getCompanyInfo_lookup_none net id2 hnet _ companyCache hcache
    refine ⟨?_, hafter⟩
    have hmem : id2 ∈ uniqueFirst companyIds := (mem_uniqueFirst id2 companyIds).mpr hid2
    show List.lookup id2 ((uniqueFirst companyIds).map (fun id =>
        (id, (List.lookup id (companiesCacheAfter net companyCache companyIds)).getD "")))
      = some ""
    rw [lookup_map_pair _ (uniqueFirst companyIds) (uniqueFirst_nodup companyIds) id2 hmem,
      hafter]
    rfl

/-- Claim C10 witness: ids 1, 2, 1 against an empty cache where the lookup for
company 1 rejects and company 2 resolves to B: the result covers the two
distinct ids, company 1 maps to the empty string and stays uncached. -/
theorem getCompaniesInfo_total_witness :
    recordKeys (getCompaniesInfo
        (fun id => if id = 2 then some "B" else none) [] [1, 2, 1]).1 = [1, 2] ∧
    List.lookup 1 (getCompaniesInfo
        (fun id => if id = 2 then some "B" else none) [] [1, 2, 1]).1 = some "" ∧
    List.lookup 1 (getCompaniesInfo
        (fun id => if id = 2 then some "B" else none) [] [1, 2, 1]).2 = none :=
  ⟨(getCompaniesInfo_total (fun id => if id = 2 then some "B" else none) [] [1, 2, 1]).1,
   ((getCompaniesInfo_total (fun id => if id = 2 then some "B" else none) [] [1, 2, 1]).2
     1 (by decide) rfl rfl).1,
   ((getCompaniesInfo_total (fun id => if id = 2 then some "B" else none) [] [1, 2, 1]).2
     1 (by decide) rfl rfl).2⟩

/-- Shared state of the Order list page relevant to enrichment (Order.tsx
lines 143-147): the extra-fields map and the ref tracking the current page's
order ids (a JS Set in the source; the guard below only ever consults its
size, so the id list is kept). The loading-id bookkeeping does not influence
which results are applied and is omitted. -/
structure OrderListState where
  extraFieldsMap : List (String × List ExtraField)
  currentPageOrderIds : List String
deriving DecidableEq, Repr

/-- Events acting on that state: a page load (Order.tsx lines 248-254: when
idsToFetch is nonempty, set the current-page ref, clear the map and start a
progressive fetch for those ids) and the delivery of an onProgress callback
belonging to the progressive fetch that was started with originIds (lines
255-265). -/
inductive OrderListEvent
  | pageLoad (ids : List String)
  | progress (originIds : List String) (accumulated : List (String × List ExtraField))
deriving DecidableEq, Repr

/-- Order.tsx: pageLoad runs lines 250-253 when the id list is nonempty;
progress runs the callback body of lines 256-265, whose guard at line 257 is
currentPageOrderIdsRef.current.size greater than zero — it consults only the
size of the CURRENT page's id set and never compares it with the origin of
the result being applied. -/
def orderListStep (s : OrderListState) : OrderListEvent → OrderListState
  | .pageLoad ids =>
    if ids.length > 0 then { extraFieldsMap := [], currentPageOrderIds := ids } else s
  | .progress _originIds accumulated =>
    if s.currentPageOrderIds.length > 0 then { s with extraFieldsMap := accumulated } else s

/-- Run of the Order list consumer from the initial state (empty map, empty
current-page ref). -/
def orderListRun (events : List OrderListEvent) : OrderListState :=
  events.foldl orderListStep ⟨[], []⟩

/-- Validity of an event trace: every progress delivery originates from a page
load that actually happened earlier (its originIds were fetched) and carries
an accumulated map keyed only by that fetch's own ids (the progressive fetcher
only writes keys String(id) for the ids it was given). -/
def validFrom (loaded : List (List String)) : List OrderListEvent → Bool
  | [] => true
  | .pageLoad ids :: rest => validFrom (ids :: loaded) rest
  | .progress originIds accumulated :: rest =>
    loaded.contains originIds
      && accumulated.all (fun p => originIds.contains p.1)
      && validFrom loaded rest

/-- The concrete trace refuting claim C2: the page with order id 1 starts its
fetch, is superseded by the page with order id 2, and only then does the stale
fetch's onProgress callback deliver its accumulated result for id 1. -/
def c2Trace : List OrderListEvent :=
  [.pageLoad ["1"],
   .pageLoad ["2"],
   .progress ["1"] [("1", [⟨"epicorOrderId", "EP-1"⟩])]]

/-- Claim C2 refutation: on the valid trace where the page for id 1 is
superseded by the page for id 2 before the stale onProgress fires, the guard
(current id-set size greater than zero) passes — the new page's id set is
nonempty — so the stale accumulated map keyed by the superseded page's id 1 IS
applied to the shared extra-fields state, overwriting the new page's (empty)
map, even though its originating id set differs from the current one. -/
theorem orderList_stale_update_applied :
    validFrom [] c2Trace = true ∧
    (orderListRun c2Trace).currentPageOrderIds = ["2"] ∧
    (orderListRun c2Trace).extraFieldsMap = [("1", [⟨"epicorOrderId", "EP-1"⟩])] ∧
    ["1"] ≠ ["2"] := by
  refine ⟨rfl, rfl, rfl, by decide⟩

/-- Modelled from the spec: a backend order as seen by the company-scoped
search primitive of spec section 6, carrying its internal id and its ERP
linkage (the empty string when the order has no ERP external id). The
OrderDetail resolver implementation is absent from the repository snapshot —
only its test file id-resolution.test.tsx is present — so this component
follows spec section 4.4. -/
structure BackendOrder where
  internalId : String
  epicorOrderId : String
deriving DecidableEq, Repr

/-- Modelled from the spec: the search-by-external-id primitive, scoped to the
current company, returning the orders whose ERP linkage equals the query (the
test file mocks GetAllOrders with search equal to the route id and matching
extraFields). -/
def searchByExternalId (orders : List BackendOrder) (q : String) : List BackendOrder :=
  orders.filter (fun o => o.epicorOrderId == q)

/-- Terminal states of the id resolution flow (spec section 4.4). -/
inductive Resolution
  | resolved (internalId : String)
  | notFound
deriving DecidableEq, Repr

/-- Modelled from the spec: resolveInternalId (spec section 4.4). With trusted
navigation state the carried internal id is used directly and search is
skipped; without it the route id — in particular a purely numeric one, which
must never be assumed to equal the internal id of the same numeric value — is
resolved through the search-by-external-id fallback, taking the first match's
internal id; no match is the NotFound terminal. -/
def resolveInternalId (orders : List BackendOrder) (routeId : String)
    (trustedState : Option String) : Resolution :=
  match trustedState with
  | some internalId => Resolution.resolved internalId
  | none =>
    match searchByExternalId orders routeId with
    | o :: _ => Resolution.resolved o.internalId
    | [] => Resolution.notFound

/-- The backend of the C4 scenario: internal order 100 exists with no ERP
linkage, internal order 999 carries ERP id 100. -/
def c4Backend : List BackendOrder := [⟨"100", ""⟩, ⟨"999", "100"⟩]

/-- Claim C4: with no trusted navigation state, the purely numeric route id
100 goes through the search-by-external-id fallback rather than a direct
fetch: against a backend where internal order 100 has no ERP linkage while
internal order 999 has ERP id 100, resolution yields internal id 999, not
100. -/
theorem resolveInternalId_numeric_disambiguation :
    resolveInternalId c4Backend "100" none = Resolution.resolved "999" ∧
    Resolution.resolved "999" ≠ (Resolution.resolved "100" : Resolution) := by
  refine ⟨rfl, by decide⟩
